import Mathlib

/-!
Verification of the retrieval-and-orchestration core of an AI support-agent
system: the reciprocal-rank-fusion engine (`src/rag/hybrid_retriever.py`),
the semantic cache (`src/cache/semantic_cache.py`), the responder agent
(`src/agents/responder.py`), the escalation handler
(`src/agents/escalation.py`) and the orchestration graph
(`src/agents/graph.py`).  External collaborators (embedding service, FAISS
similarity search, the LLM generation call, PII handling) are modelled as
explicit inputs, following the specification's collaborator contracts.
Machine floats are modelled as rationals.
-/

namespace SupportAgent

/-! ## Configuration constants (src/config.py) -/

def SEMANTIC_CACHE_THRESHOLD : ℚ := 0.90

def CACHE_TTL_SECONDS : ℚ := 3600

def MAX_RETRIES : ℕ := 2

def CONFIDENCE_THRESHOLD : ℚ := 0.7

def ESCALATION_THRESHOLD : ℚ := 0.5

/-! ## Fusion engine (src/rag/hybrid_retriever.py)

A retrieval result entering `_reciprocal_rank_fusion` is a dict with
`content`, `score` and `metadata`; only the `chunk_id` key of the metadata
is consulted by the fusion code, so it is modelled as an explicit optional
field. -/

structure Result where
  chunk_id : Option String
  content : String
  score : ℚ
  deriving DecidableEq

/-- `doc_id = result["metadata"].get("chunk_id", result["content"][:100])` -/
def docId (r : Result) : String :=
  r.chunk_id.getD (r.content.take 100)

/-- A fused result: the stored result dict plus the `fused_score` key added
by `_reciprocal_rank_fusion`. -/
structure FusedResult where
  result : Result
  fused_score : ℚ
  deriving DecidableEq

/-- `fused_scores[doc_id] += v` on a `defaultdict(float)`, modelled as an
insertion-ordered association list (Python dicts preserve insertion
order). -/
def addScore (d : String) (v : ℚ) : List (String × ℚ) → List (String × ℚ)
  | [] => [(d, v)]
  | (d', s) :: rest =>
    if d' = d then (d', s + v) :: rest else (d', s) :: addScore d v rest

/-- `if doc_id not in doc_data or result["score"] > doc_data[doc_id]["score"]:
doc_data[doc_id] = result` -/
def updateData (d : String) (r : Result) :
    List (String × Result) → List (String × Result)
  | [] => [(d, r)]
  | (d', r') :: rest =>
    if d' = d then
      (if r'.score < r.score then (d', r) else (d', r')) :: rest
    else (d', r') :: updateData d r rest

/-- Dictionary lookup on an insertion-ordered association list. -/
def assocFind {α : Type} (d : String) : List (String × α) → Option α
  | [] => none
  | (d', v) :: rest => if d' = d then some v else assocFind d rest

/-- The double loop of `_reciprocal_rank_fusion` that builds `fused_scores`
and `doc_data`: for each result list, for each `(rank, result)` in
`enumerate(results)`, add `1 / (k + rank + 1)` to the fused score of its
doc id and keep the result copy with the highest native score. -/
def rrfFold (k : ℕ) (lists : List (List Result)) :
    List (String × ℚ) × List (String × Result) :=
  lists.foldl
    (fun acc results =>
      results.enum.foldl
        (fun acc' p =>
          (addScore (docId p.2) ((1 : ℚ) / (k + p.1 + 1)) acc'.1,
           updateData (docId p.2) p.2 acc'.2))
        acc)
    ([], [])

/-- One step of a stable descending insertion sort: the new element is
placed before the first element whose score is `≤` its own, so elements
already in the list with a strictly greater score stay in front and the
relative order of equal scores is preserved — the behaviour of Python's
stable `sorted(..., key=lambda x: x[1], reverse=True)`. -/
def insertDesc (x : String × ℚ) : List (String × ℚ) → List (String × ℚ)
  | [] => [x]
  | y :: ys => if y.2 ≤ x.2 then x :: y :: ys else y :: insertDesc x ys

/-- Stable sort, descending by the score component. -/
def sortDesc : List (String × ℚ) → List (String × ℚ)
  | [] => []
  | x :: xs => insertDesc x (sortDesc xs)

/-- `_reciprocal_rank_fusion`: build `fused_scores` and `doc_data`, sort the
score items descending, then rebuild each result from `doc_data` with its
`fused_score` attached.  The lookup into `doc_data` always succeeds (every
fused-score key is a `doc_data` key); `filterMap` records that the rebuild
only emits results whose key is present. -/
def reciprocalRankFusion (k : ℕ) (lists : List (List Result)) :
    List FusedResult :=
  let p := rrfFold k lists
  (sortDesc p.1).filterMap
    (fun ds => (assocFind ds.1 p.2).map (fun r => ⟨r, ds.2⟩))

/-- The `rrf_k` default of `HybridRetriever.__init__`. -/
def RRF_K : ℕ := 60

/-- Modelled from the spec: `fusedScore = Σ 1/(k + rank_i + 1)` over the
occurrences of a passage identity in one ranked list (0-based rank). -/
def listScore (k : ℕ) (d : String) (l : List Result) : ℚ :=
  ((l.enum.filter (fun p => docId p.2 = d)).map
    (fun p => (1 : ℚ) / (k + p.1 + 1))).sum

/-- Modelled from the spec: the fused score of a passage identity is the sum
of its per-list reciprocal-rank contributions over all input lists. -/
def specFusedScore (k : ℕ) (d : String) (lists : List (List Result)) : ℚ :=
  (lists.map (listScore k d)).sum

/-- Fused score actually assigned by the code to identity `d` (0 when `d`
never occurs, matching `defaultdict(float)`). -/
def scoreOf (d : String) (kl : List (String × ℚ)) : ℚ :=
  (assocFind d kl).getD 0

/-- The `fused_scores` component of the fusion fold, on its own. -/
def scoresFold (k : ℕ) (lists : List (List Result)) : List (String × ℚ) :=
  lists.foldl
    (fun acc results =>
      results.enum.foldl
        (fun a p => addScore (docId p.2) ((1 : ℚ) / (k + p.1 + 1)) a)
        acc)
    []

/-- The `doc_data` component of the fusion fold, on its own. -/
def dataFold (lists : List (List Result)) : List (String × Result) :=
  lists.foldl
    (fun acc results =>
      results.enum.foldl (fun a p => updateData (docId p.2) p.2 a) acc)
    []

theorem foldl_pair {α β γ : Type} (f : α → γ → α) (g : β → γ → β)
    (l : List γ) (a : α × β) :
    l.foldl (fun acc x => (f acc.1 x, g acc.2 x)) a =
      (l.foldl f a.1, l.foldl g a.2) := by
  induction l generalizing a with
  | nil => rfl
  | cons x xs ih => simp only [List.foldl_cons]; rw [ih]

theorem rrfFold_eq_aux (k : ℕ) :
    ∀ (lists : List (List Result))
      (a : List (String × ℚ) × List (String × Result)),
      lists.foldl
          (fun acc results =>
            results.enum.foldl
              (fun acc' p =>
                (addScore (docId p.2) ((1 : ℚ) / (k + p.1 + 1)) acc'.1,
                 updateData (docId p.2) p.2 acc'.2))
              acc)
          a =
        (lists.foldl
          (fun acc results =>
            results.enum.foldl
              (fun b p => addScore (docId p.2) ((1 : ℚ) / (k + p.1 + 1)) b)
              acc)
          a.1,
         lists.foldl
          (fun acc results =>
            results.enum.foldl (fun b p => updateData (docId p.2) p.2 b) acc)
          a.2) := by
  intro lists
  induction lists with
  | nil => intro a; rfl
  | cons l ls ih =>
    intro a
    simp only [List.foldl_cons]
    rw [foldl_pair
      (fun b p => addScore (docId p.2) ((1 : ℚ) / (k + p.1 + 1)) b)
      (fun b p => updateData (docId p.2) p.2 b) l.enum a]
    exact ih _

theorem rrfFold_eq (k : ℕ) (lists : List (List Result)) :
    rrfFold k lists = (scoresFold k lists, dataFold lists) := by
  unfold rrfFold scoresFold dataFold
  exact rrfFold_eq_aux k lists ([], [])

theorem scoreOf_addScore_self (d : String) (v : ℚ)
    (kl : List (String × ℚ)) :
    scoreOf d (addScore d v kl) = scoreOf d kl + v := by
  induction kl with
  | nil => simp [addScore, scoreOf, assocFind]
  | cons hd tl ih =>
    obtain ⟨d', s⟩ := hd
    by_cases h : d' = d
    · simp [addScore, scoreOf, assocFind, if_pos h]
    · simp only [addScore, if_neg h, scoreOf, assocFind] at ih ⊢
      exact ih

theorem scoreOf_addScore_ne (d d' : String) (v : ℚ)
    (kl : List (String × ℚ)) (h : d' ≠ d) :
    scoreOf d' (addScore d v kl) = scoreOf d' kl := by
  induction kl with
  | nil =>
    have hne : ¬ (d = d') := fun he => h he.symm
    simp [addScore, scoreOf, assocFind, if_neg hne]
  | cons hd tl ih =>
    obtain ⟨da, s⟩ := hd
    by_cases hda : da = d
    · have hne : ¬ da = d' := fun he => h (he.symm.trans hda)
      simp [addScore, scoreOf, assocFind, if_pos hda, if_neg hne]
    · by_cases hq : da = d'
      · simp [addScore, scoreOf, assocFind, if_neg hda, if_pos hq]
      · simp only [addScore, if_neg hda, scoreOf, assocFind,
          if_neg hq] at ih ⊢
        exact ih

theorem scoreOf_enum_foldl (w : ℕ × Result → ℚ) (d : String) :
    ∀ (ps : List (ℕ × Result)) (acc : List (String × ℚ)),
      scoreOf d (ps.foldl (fun a p => addScore (docId p.2) (w p) a) acc) =
        scoreOf d acc +
          ((ps.filter (fun p => docId p.2 = d)).map w).sum := by
  intro ps
  induction ps with
  | nil => intro acc; simp
  | cons p ps ih =>
    intro acc
    simp only [List.foldl_cons, ih]
    by_cases h : docId p.2 = d
    · rw [h, scoreOf_addScore_self]
      simp [List.filter_cons, h]
      ring
    · rw [scoreOf_addScore_ne _ _ _ _ (fun he => h he.symm)]
      simp [List.filter_cons, h]

theorem scoreOf_scoresFold_aux (k : ℕ) (d : String) :
    ∀ (lists : List (List Result)) (acc : List (String × ℚ)),
      scoreOf d
          (lists.foldl
            (fun acc results =>
              results.enum.foldl
                (fun a p => addScore (docId p.2) ((1 : ℚ) / (k + p.1 + 1)) a)
                acc)
            acc) =
        scoreOf d acc + specFusedScore k d lists := by
  intro lists
  induction lists with
  | nil => intro acc; simp [specFusedScore]
  | cons l ls ih =>
    intro acc
    simp only [List.foldl_cons, ih, scoreOf_enum_foldl]
    simp [specFusedScore, listScore]
    ring

theorem scoreOf_scoresFold (k : ℕ) (d : String) (lists : List (List Result)) :
    scoreOf d (scoresFold k lists) = specFusedScore k d lists := by
  have h := scoreOf_scoresFold_aux k d lists []
  simpa [scoresFold, scoreOf, assocFind] using h

theorem enumFrom_filter_eq_nil (d : String) (l : List Result)
    (h : d ∉ l.map docId) (n : ℕ) :
    (List.enumFrom n l).filter (fun p => docId p.2 = d) = [] := by
  rw [List.filter_eq_nil_iff]
  intro p hp
  simp only [decide_eq_true_eq]
  intro hpd
  exact h (List.mem_map.2 ⟨p.2, (List.mem_enumFrom hp).2.2 ▸ List.snd_mem_of_mem_enumFrom hp, hpd⟩)

theorem one_div_succ_pos (k n : ℕ) : (0 : ℚ) < 1 / (k + n + 1) := by
  positivity

theorem enumFrom_score_le (k : ℕ) (d : String) :
    ∀ (l : List Result), (l.map docId).Nodup → ∀ n : ℕ,
      (((List.enumFrom n l).filter (fun p => docId p.2 = d)).map
        (fun p => (1 : ℚ) / (k + p.1 + 1))).sum ≤ 1 / (k + n + 1) := by
  intro l
  induction l with
  | nil =>
    intro _ n
    simpa using (one_div_succ_pos k n).le
  | cons r rest ih =>
    intro hnd n
    simp only [List.map_cons, List.nodup_cons] at hnd
    by_cases h : docId r = d
    · have hrest : d ∉ rest.map docId := h ▸ hnd.1
      have hstep : (List.enumFrom n (r :: rest)).filter
          (fun p => docId p.2 = d) = [(n, r)] := by
        rw [List.enumFrom_cons, List.filter_cons,
          enumFrom_filter_eq_nil d rest hrest (n + 1)]
        simp [h]
      rw [hstep]
      simp
    · have hstep : (List.enumFrom n (r :: rest)).filter
          (fun p => docId p.2 = d) =
          (List.enumFrom (n + 1) rest).filter (fun p => docId p.2 = d) := by
        rw [List.enumFrom_cons, List.filter_cons]
        simp [h]
      rw [hstep]
      refine le_trans (ih hnd.2 (n + 1)) ?_
      apply one_div_le_one_div_of_le
      · positivity
      · push_cast; linarith

theorem listScore_le (k : ℕ) (d : String) (l : List Result)
    (h : (l.map docId).Nodup) :
    listScore k d l ≤ 1 / (k + 1 : ℚ) := by
  have := enumFrom_score_le k d l h 0
  simpa [listScore, List.enum] using this

theorem listScore_head (k : ℕ) (d : String) (r : Result) (rest : List Result)
    (h : ((r :: rest).map docId).Nodup) (hd : docId r = d) :
    listScore k d (r :: rest) = 1 / (k + 1 : ℚ) := by
  simp only [List.map_cons, List.nodup_cons] at h
  have hrest : d ∉ rest.map docId := hd ▸ h.1
  simp only [listScore, List.enum, List.enumFrom_cons, List.filter_cons]
  rw [enumFrom_filter_eq_nil d rest hrest 1]
  simp [hd]

theorem sum_map_eq_of_forall {α : Type} (f : α → ℚ) (c : ℚ) :
    ∀ l : List α, (∀ x ∈ l, f x = c) → (l.map f).sum = l.length * c := by
  intro l
  induction l with
  | nil => simp
  | cons x xs ih =>
    intro h
    simp only [List.map_cons, List.sum_cons, List.length_cons]
    rw [h x (List.mem_cons_self x xs), ih (fun y hy => h y (List.mem_cons_of_mem x hy))]
    push_cast
    ring

theorem sum_map_le_of_forall {α : Type} (f : α → ℚ) (c : ℚ) :
    ∀ l : List α, (∀ x ∈ l, f x ≤ c) → (l.map f).sum ≤ l.length * c := by
  intro l
  induction l with
  | nil => simp
  | cons x xs ih =>
    intro h
    simp only [List.map_cons, List.sum_cons, List.length_cons]
    have h1 := h x (List.mem_cons_self x xs)
    have h2 := ih (fun y hy => h y (List.mem_cons_of_mem x hy))
    push_cast
    linarith

/-- C1: for every list of input ranked lists, the fusion assigns each
distinct passage identity the fused score `Σ 1/(k + rank + 1)` summed over
every occurrence in every list (rank 0-based); and when within each list
the passage identities are distinct, a passage at rank 0 of every one of
the `N` input lists receives exactly `N × 1/(k+1)`, the maximum possible
fused score. -/
theorem fusion_score_formula_and_max (k : ℕ) (lists : List (List Result)) :
    (∀ d, scoreOf d (rrfFold k lists).1 = specFusedScore k d lists) ∧
    ((∀ l ∈ lists, (l.map docId).Nodup) →
      ∀ d, (∀ l ∈ lists, l.head?.map docId = some d) →
        scoreOf d (rrfFold k lists).1 =
            (lists.length : ℚ) * (1 / (k + 1)) ∧
        ∀ d', scoreOf d' (rrfFold k lists).1 ≤
            (lists.length : ℚ) * (1 / (k + 1))) := by
  have hbase : ∀ d, scoreOf d (rrfFold k lists).1 = specFusedScore k d lists := by
    intro d
    rw [rrfFold_eq]
    exact scoreOf_scoresFold k d lists
  refine ⟨hbase, fun hnd d hhd => ⟨?_, fun d' => ?_⟩⟩
  · rw [hbase d]
    unfold specFusedScore
    apply sum_map_eq_of_forall
    intro l hl
    obtain ⟨r, rest, hcons⟩ : ∃ r rest, l = r :: rest := by
      cases l with
      | nil => simp at hhd; exact absurd (hhd [] (by simpa using hl)) (by simp)
      | cons r rest => exact ⟨r, rest, rfl⟩
    subst hcons
    have hh := hhd _ hl
    simp only [List.head?_cons, Option.map_some] at hh
    exact listScore_head k d r rest (hnd _ hl) (Option.some.inj hh)
  · rw [hbase d']
    unfold specFusedScore
    apply sum_map_le_of_forall
    intro l hl
    exact listScore_le k d' l (hnd _ hl)

/-- Concrete instance of the fusion-score theorem: a passage at rank 0 of
both of two input lists, with `k = 60`, is assigned fused score `2/61`. -/
theorem fusion_score_formula_and_max_witness :
    scoreOf "a"
        (rrfFold 60 [[⟨some "a", "x", 1⟩], [⟨some "a", "x", 1⟩]]).1 =
      2 / 61 := by
  have h := (fusion_score_formula_and_max 60
      [[⟨some "a", "x", 1⟩], [⟨some "a", "x", 1⟩]]).2
      (by decide) "a" (by decide)
  rw [h.1]
  norm_num

/-! ### Key-set bookkeeping for the two fusion dictionaries -/

def keysOf {α : Type} (kl : List (String × α)) : List String :=
  kl.map Prod.fst

theorem keysOf_addScore (d : String) (v : ℚ) (kl : List (String × ℚ)) :
    keysOf (addScore d v kl) =
      if d ∈ keysOf kl then keysOf kl else keysOf kl ++ [d] := by
  induction kl with
  | nil => simp [addScore, keysOf]
  | cons hd tl ih =>
    obtain ⟨d', s⟩ := hd
    by_cases h : d' = d
    · simp [addScore, if_pos h, keysOf, h]
    · have hne : ¬ (d = d') := fun he => h he.symm
      simp only [addScore, if_neg h, keysOf, List.map_cons] at ih ⊢
      rw [ih]
      by_cases hm : d ∈ tl.map Prod.fst
      · simp [hm, hne]
      · simp [hm, hne]

theorem keysOf_updateData (d : String) (r : Result)
    (dl : List (String × Result)) :
    keysOf (updateData d r dl) =
      if d ∈ keysOf dl then keysOf dl else keysOf dl ++ [d] := by
  induction dl with
  | nil => simp [updateData, keysOf]
  | cons hd tl ih =>
    obtain ⟨d', r'⟩ := hd
    by_cases h : d' = d
    · by_cases hc : r'.score < r.score <;>
        simp [updateData, if_pos h, keysOf, h, hc]
    · have hne : ¬ (d = d') := fun he => h he.symm
      simp only [updateData, if_neg h, keysOf, List.map_cons] at ih ⊢
      rw [ih]
      by_cases hm : d ∈ tl.map Prod.fst
      · simp [hm, hne]
      · simp [hm, hne]

theorem keysOf_inner_fold_eq :
    ∀ (ps : List (ℕ × Result)) (w : ℕ × Result → ℚ)
      (acc1 : List (String × ℚ)) (acc2 : List (String × Result)),
      keysOf acc1 = keysOf acc2 →
      keysOf (ps.foldl (fun a p => addScore (docId p.2) (w p) a) acc1) =
        keysOf (ps.foldl (fun a p => updateData (docId p.2) p.2 a) acc2) := by
  intro ps
  induction ps with
  | nil => intro w acc1 acc2 h; exact h
  | cons p ps ih =>
    intro w acc1 acc2 h
    simp only [List.foldl_cons]
    apply ih
    rw [keysOf_addScore, keysOf_updateData, h]

theorem keysOf_scoresFold_eq_dataFold (k : ℕ) (lists : List (List Result)) :
    keysOf (scoresFold k lists) = keysOf (dataFold lists) := by
  unfold scoresFold dataFold
  suffices h : ∀ (ls : List (List Result)) (acc1 : List (String × ℚ))
      (acc2 : List (String × Result)), keysOf acc1 = keysOf acc2 →
      keysOf (ls.foldl
        (fun acc results => results.enum.foldl
          (fun a p => addScore (docId p.2) ((1 : ℚ) / (k + p.1 + 1)) a) acc)
        acc1) =
      keysOf (ls.foldl
        (fun acc results => results.enum.foldl
          (fun a p => updateData (docId p.2) p.2 a) acc) acc2) by
    exact h lists [] [] rfl
  intro ls
  induction ls with
  | nil => intro acc1 acc2 h; exact h
  | cons l ls ih =>
    intro acc1 acc2 h
    simp only [List.foldl_cons]
    exact ih _ _ (keysOf_inner_fold_eq l.enum _ acc1 acc2 h)

theorem keysOf_addScore_nodup (d : String) (v : ℚ)
    (kl : List (String × ℚ)) (h : (keysOf kl).Nodup) :
    (keysOf (addScore d v kl)).Nodup := by
  rw [keysOf_addScore]
  by_cases hm : d ∈ keysOf kl
  · simpa [hm]
  · simp only [hm, if_false]
    simp [List.nodup_append, h, hm]

theorem keysOf_scoresFold_nodup (k : ℕ) (lists : List (List Result)) :
    (keysOf (scoresFold k lists)).Nodup := by
  unfold scoresFold
  suffices h : ∀ (ls : List (List Result)) (acc : List (String × ℚ)),
      (keysOf acc).Nodup →
      (keysOf (ls.foldl
        (fun acc results => results.enum.foldl
          (fun a p => addScore (docId p.2) ((1 : ℚ) / (k + p.1 + 1)) a) acc)
        acc)).Nodup by
    exact h lists [] (by simp [keysOf])
  intro ls
  induction ls with
  | nil => intro acc h; exact h
  | cons l ls ih =>
    intro acc h
    simp only [List.foldl_cons]
    apply ih
    suffices hin : ∀ (ps : List (ℕ × Result)) (a : List (String × ℚ)),
        (keysOf a).Nodup →
        (keysOf (ps.foldl
          (fun a p => addScore (docId p.2) ((1 : ℚ) / (k + p.1 + 1)) a)
          a)).Nodup by
      exact hin l.enum acc h
    intro ps
    induction ps with
    | nil => intro a ha; exact ha
    | cons p ps ihp =>
      intro a ha
      simp only [List.foldl_cons]
      exact ihp _ (keysOf_addScore_nodup _ _ _ ha)

theorem assocFind_isSome_of_mem_keys {α : Type} (d : String)
    (kl : List (String × α)) (h : d ∈ keysOf kl) :
    ∃ v, assocFind d kl = some v := by
  induction kl with
  | nil => simp [keysOf] at h
  | cons hd tl ih =>
    obtain ⟨d', v⟩ := hd
    by_cases he : d' = d
    · exact ⟨v, by simp [assocFind, if_pos he]⟩
    · have : d ∈ keysOf tl := by
        rcases (by simpa [keysOf] using h : d = d' ∨ d ∈ keysOf tl) with h1 | h2
        · exact absurd h1.symm he
        · exact h2
      obtain ⟨w, hw⟩ := ih this
      exact ⟨w, by simp [assocFind, if_neg he, hw]⟩

theorem assocFind_mem {α : Type} (d : String) (kl : List (String × α))
    (v : α) (h : assocFind d kl = some v) : (d, v) ∈ kl := by
  induction kl with
  | nil => simp [assocFind] at h
  | cons hd tl ih =>
    obtain ⟨d', w⟩ := hd
    by_cases he : d' = d
    · simp only [assocFind, if_pos he] at h
      have hv : w = v := Option.some.inj h
      subst hv
      subst he
      exact List.mem_cons_self _ _
    · simp only [assocFind, if_neg he] at h
      exact List.mem_cons_of_mem _ (ih h)

theorem updateData_inv (d : String) (r : Result) (hd : docId r = d)
    (dl : List (String × Result)) (h : ∀ p ∈ dl, docId p.2 = p.1) :
    ∀ p ∈ updateData d r dl, docId p.2 = p.1 := by
  induction dl with
  | nil =>
    intro p hp
    simp only [updateData, List.mem_singleton] at hp
    rw [hp]
    exact hd
  | cons q tl ih =>
    obtain ⟨d', r'⟩ := q
    intro p hp
    by_cases he : d' = d
    · simp only [updateData, if_pos he] at hp
      rcases List.mem_cons.1 hp with h1 | h2
      · by_cases hc : r'.score < r.score
        · rw [if_pos hc] at h1
          rw [h1]
          exact he ▸ hd
        · rw [if_neg hc] at h1
          rw [h1]
          exact h _ (List.mem_cons_self _ _)
      · exact h _ (List.mem_cons_of_mem _ h2)
    · simp only [updateData, if_neg he] at hp
      rcases List.mem_cons.1 hp with h1 | h2
      · rw [h1]
        exact h _ (List.mem_cons_self _ _)
      · exact ih (fun q hq => h q (List.mem_cons_of_mem _ hq)) _ h2

theorem dataFold_inv (lists : List (List Result)) :
    ∀ p ∈ dataFold lists, docId p.2 = p.1 := by
  unfold dataFold
  suffices h : ∀ (ls : List (List Result)) (acc : List (String × Result)),
      (∀ p ∈ acc, docId p.2 = p.1) →
      ∀ p ∈ ls.foldl
        (fun acc results => results.enum.foldl
          (fun a q => updateData (docId q.2) q.2 a) acc) acc,
        docId p.2 = p.1 by
    exact h lists [] (by simp)
  intro ls
  induction ls with
  | nil => intro acc h; exact h
  | cons l ls ih =>
    intro acc h
    simp only [List.foldl_cons]
    apply ih
    suffices hin : ∀ (ps : List (ℕ × Result)) (a : List (String × Result)),
        (∀ p ∈ a, docId p.2 = p.1) →
        ∀ p ∈ ps.foldl (fun a q => updateData (docId q.2) q.2 a) a,
          docId p.2 = p.1 by
      exact hin l.enum acc h
    intro ps
    induction ps with
    | nil => intro a ha; exact ha
    | cons q ps ihp =>
      intro a ha
      simp only [List.foldl_cons]
      exact ihp _ (updateData_inv _ _ rfl _ ha)

/-! ### The stable descending sort used by the fusion engine -/

theorem insertDesc_perm (x : String × ℚ) (l : List (String × ℚ)) :
    (insertDesc x l).Perm (x :: l) := by
  induction l with
  | nil => simp [insertDesc]
  | cons y ys ih =>
    by_cases h : y.2 ≤ x.2
    · simp [insertDesc, if_pos h]
    · rw [insertDesc, if_neg h]
      exact (ih.cons y).trans (List.Perm.swap x y ys)

theorem sortDesc_perm (l : List (String × ℚ)) : (sortDesc l).Perm l := by
  induction l with
  | nil => simp [sortDesc]
  | cons x xs ih =>
    rw [sortDesc]
    exact (insertDesc_perm x (sortDesc xs)).trans (ih.cons x)

theorem mem_insertDesc (z x : String × ℚ) (l : List (String × ℚ)) :
    z ∈ insertDesc x l ↔ z = x ∨ z ∈ l := by
  rw [(insertDesc_perm x l).mem_iff]
  simp

theorem pairwise_insertDesc (x : String × ℚ) (l : List (String × ℚ))
    (h : l.Pairwise (fun a b => b.2 ≤ a.2)) :
    (insertDesc x l).Pairwise (fun a b => b.2 ≤ a.2) := by
  induction l with
  | nil => simp [insertDesc]
  | cons y ys ih =>
    rw [List.pairwise_cons] at h
    by_cases hc : y.2 ≤ x.2
    · rw [insertDesc, if_pos hc]
      refine List.Pairwise.cons ?_ (List.Pairwise.cons h.1 h.2)
      intro z hz
      rcases List.mem_cons.1 hz with h1 | h2
      · rw [h1]; exact hc
      · exact le_trans (h.1 z h2) hc
    · rw [insertDesc, if_neg hc]
      refine List.Pairwise.cons ?_ (ih h.2)
      intro z hz
      rcases (mem_insertDesc z x ys).1 hz with h1 | h2
      · rw [h1]; exact (lt_of_not_le hc).le
      · exact h.1 z h2

theorem sortDesc_sorted (l : List (String × ℚ)) :
    (sortDesc l).Pairwise (fun a b => b.2 ≤ a.2) := by
  induction l with
  | nil => simp [sortDesc]
  | cons x xs ih => exact pairwise_insertDesc x (sortDesc xs) ih

theorem filter_insertDesc (c : ℚ) (x : String × ℚ)
    (l : List (String × ℚ)) :
    (insertDesc x l).filter (fun p => p.2 = c) =
      if x.2 = c then x :: l.filter (fun p => p.2 = c)
      else l.filter (fun p => p.2 = c) := by
  induction l with
  | nil =>
    by_cases h : x.2 = c <;> simp [insertDesc, List.filter_cons, h]
  | cons y ys ih =>
    by_cases hc : y.2 ≤ x.2
    · rw [insertDesc, if_pos hc]
      by_cases h : x.2 = c <;> simp [List.filter_cons, h]
    · rw [insertDesc, if_neg hc, List.filter_cons, List.filter_cons, ih]
      by_cases h : x.2 = c
      · have hy : ¬ (y.2 = c) := by
          intro hyc
          exact hc (le_of_eq (hyc.trans h.symm))
        simp [h, hy]
      · by_cases hy : y.2 = c <;> simp [h, hy]

theorem sortDesc_filter (c : ℚ) (l : List (String × ℚ)) :
    (sortDesc l).filter (fun p => p.2 = c) =
      l.filter (fun p => p.2 = c) := by
  induction l with
  | nil => simp [sortDesc]
  | cons x xs ih =>
    rw [sortDesc, filter_insertDesc, List.filter_cons, ih]
    by_cases h : x.2 = c <;> simp [h]

/-! ### The fused output, characterised as the sorted key/score items -/

theorem filterMap_eq_self {α : Type} (l : List α) (f : α → Option α)
    (h : ∀ x ∈ l, f x = some x) : l.filterMap f = l := by
  induction l with
  | nil => simp
  | cons x xs ih =>
    rw [List.filterMap_cons, h x (List.mem_cons_self x xs),
      ih (fun y hy => h y (List.mem_cons_of_mem x hy))]

theorem fusion_map_pair (k : ℕ) (lists : List (List Result)) :
    (reciprocalRankFusion k lists).map
        (fun fr => (docId fr.result, fr.fused_score)) =
      sortDesc (scoresFold k lists) := by
  have hfuse : reciprocalRankFusion k lists =
      (sortDesc (scoresFold k lists)).filterMap
        (fun ds => (assocFind ds.1 (dataFold lists)).map
          (fun r => ⟨r, ds.2⟩)) := by
    unfold reciprocalRankFusion
    rw [rrfFold_eq]
  rw [hfuse, List.map_filterMap]
  apply filterMap_eq_self
  intro ds hds
  have hmem : ds ∈ scoresFold k lists := (sortDesc_perm _).mem_iff.1 hds
  have hkey : ds.1 ∈ keysOf (dataFold lists) := by
    rw [← keysOf_scoresFold_eq_dataFold k lists]
    exact List.mem_map.2 ⟨ds, hmem, rfl⟩
  obtain ⟨r, hr⟩ := assocFind_isSome_of_mem_keys ds.1 (dataFold lists) hkey
  have hid : docId r = ds.1 :=
    dataFold_inv lists (ds.1, r) (assocFind_mem _ _ _ hr)
  simp [hr, Option.map_map, hid]

/-- C4: no two results of a fused output share the same deduplication key
(the `chunk_id` when present, otherwise the first-100-character content
fallback): the doc ids of the fused list are pairwise distinct. -/
theorem fusion_dedup_invariant (k : ℕ) (lists : List (List Result)) :
    ((reciprocalRankFusion k lists).map
      (fun fr => docId fr.result)).Nodup := by
  have hmap : (reciprocalRankFusion k lists).map (fun fr => docId fr.result) =
      keysOf (sortDesc (scoresFold k lists)) := by
    have h := congrArg (List.map Prod.fst) (fusion_map_pair k lists)
    rw [List.map_map] at h
    exact h
  rw [hmap]
  have hperm : (keysOf (sortDesc (scoresFold k lists))).Perm
      (keysOf (scoresFold k lists)) := (sortDesc_perm _).map Prod.fst
  exact hperm.nodup_iff.2 (keysOf_scoresFold_nodup k lists)

/-- C9: the fusion is a pure function of its input lists (identical inputs
give identical output, scores included); the output is sorted descending by
fused score; and ties are broken by original insertion order: for every
score value, the doc ids holding that fused score appear in exactly the
order in which they were first inserted into the score dictionary. -/
theorem fusion_deterministic_stable (k : ℕ) (lists : List (List Result)) :
    reciprocalRankFusion k lists = reciprocalRankFusion k lists ∧
    (reciprocalRankFusion k lists).Pairwise
      (fun a b => b.fused_score ≤ a.fused_score) ∧
    ∀ c : ℚ,
      ((reciprocalRankFusion k lists).filter
          (fun fr => fr.fused_score = c)).map (fun fr => docId fr.result) =
        ((scoresFold k lists).filter (fun p => p.2 = c)).map Prod.fst := by
  refine ⟨rfl, ?_, ?_⟩
  · have hs := sortDesc_sorted (scoresFold k lists)
    rw [← fusion_map_pair k lists] at hs
    rw [List.pairwise_map] at hs
    exact hs
  · intro c
    have h1 : ((reciprocalRankFusion k lists).map
        (fun fr => (docId fr.result, fr.fused_score))).filter
          (fun p => p.2 = c) =
        (sortDesc (scoresFold k lists)).filter (fun p => p.2 = c) := by
      rw [fusion_map_pair]
    rw [List.filter_map, sortDesc_filter] at h1
    have h2 := congrArg (List.map Prod.fst) h1
    rw [List.map_map] at h2
    exact h2

/-! ## Orchestrator quality gate and retry loop (src/agents/graph.py)

`SupportAgentGraph._quality_decision` routes the `respond` node's outcome:
`good` when confidence reaches `CONFIDENCE_THRESHOLD`, a retry (incrementing
`retry_count`) when retries remain and the confidence is strictly above the
`0.3` floor, and `escalate` otherwise. -/

inductive QDecision where
  | good
  | retry
  | escalate
  deriving DecidableEq

/-- `_quality_decision(state)` as a function of the state fields it reads
(`state.confidence` and `state.retry_count`). -/
def qualityDecision (confidence : ℚ) (retry_count : ℕ) : QDecision :=
  if CONFIDENCE_THRESHOLD ≤ confidence then .good
  else if retry_count < MAX_RETRIES ∧ (0.3 : ℚ) < confidence then .retry
  else .escalate

theorem qualityDecision_retry_lt (c : ℚ) (r : ℕ)
    (h : qualityDecision c r = .retry) : r < MAX_RETRIES := by
  unfold qualityDecision at h
  by_cases h1 : CONFIDENCE_THRESHOLD ≤ c
  · rw [if_pos h1] at h
    exact absurd h (by simp)
  · rw [if_neg h1] at h
    by_cases h2 : r < MAX_RETRIES ∧ (0.3 : ℚ) < c
    · exact h2.1
    · rw [if_neg h2] at h
      exact absurd h (by simp)

/-- The `respond` → `_quality_decision` cycle of the graph: attempt `r`
(which is also the current `retry_count`, since each retry increments it by
exactly one) consumes the `r`-th confidence outcome; a retry re-enters
`respond` with `retry_count + 1`.  Returns the number of `respond`
invocations and the decision that ends the loop. -/
def respondLoop (outcomes : ℕ → ℚ) (r : ℕ) : ℕ × QDecision :=
  match h : qualityDecision (outcomes r) r with
  | .good => (1, .good)
  | .escalate => (1, .escalate)
  | .retry =>
    let p := respondLoop outcomes (r + 1)
    (p.1 + 1, p.2)
termination_by MAX_RETRIES - r
decreasing_by
  have := qualityDecision_retry_lt (outcomes r) r h
  omega

theorem respondLoop_good (outcomes : ℕ → ℚ) (r : ℕ)
    (h : qualityDecision (outcomes r) r = .good) :
    respondLoop outcomes r = (1, .good) := by
  rw [respondLoop]
  split
  · rfl
  · rename_i he
    rw [h] at he
    exact absurd he (by simp)
  · rename_i he
    rw [h] at he
    exact absurd he (by simp)

theorem respondLoop_escalate (outcomes : ℕ → ℚ) (r : ℕ)
    (h : qualityDecision (outcomes r) r = .escalate) :
    respondLoop outcomes r = (1, .escalate) := by
  rw [respondLoop]
  split
  · rename_i he
    rw [h] at he
    exact absurd he (by simp)
  · rfl
  · rename_i he
    rw [h] at he
    exact absurd he (by simp)

theorem respondLoop_retry (outcomes : ℕ → ℚ) (r : ℕ)
    (h : qualityDecision (outcomes r) r = .retry) :
    respondLoop outcomes r =
      ((respondLoop outcomes (r + 1)).1 + 1,
       (respondLoop outcomes (r + 1)).2) := by
  rw [respondLoop]
  split
  · rename_i he
    rw [h] at he
    exact absurd he (by simp)
  · rename_i he
    rw [h] at he
    exact absurd he (by simp)
  · rfl

theorem qualityDecision_of_band (c : ℚ) (r : ℕ)
    (hlo : (0.3 : ℚ) < c) (hhi : c < CONFIDENCE_THRESHOLD) :
    qualityDecision c r = if r < MAX_RETRIES then .retry else .escalate := by
  unfold qualityDecision
  rw [if_neg (not_le.2 hhi)]
  by_cases hr : r < MAX_RETRIES
  · rw [if_pos ⟨hr, hlo⟩, if_pos hr]
  · rw [if_neg (fun hc => hr hc.1), if_neg hr]

/-- C2 counterexample: a run whose `respond` outcomes are all `0.2` — below
the retry threshold on every attempt — ends after a single `respond`
invocation, not `MAX_RETRIES + 1 = 3` of them, refuting the claim that
every all-below-threshold sequence yields exactly `maxRetries + 1`
attempts. -/
theorem retry_bound_counterexample :
    ¬ (∀ outcomes : ℕ → ℚ,
        (∀ i, outcomes i < CONFIDENCE_THRESHOLD) →
        respondLoop outcomes 0 = (MAX_RETRIES + 1, .escalate)) := by
  intro hclaim
  have hdec : qualityDecision ((fun _ => (0.2 : ℚ)) 0) 0 = .escalate := by
    unfold qualityDecision CONFIDENCE_THRESHOLD MAX_RETRIES
    norm_num
  have h1 : respondLoop (fun _ => (0.2 : ℚ)) 0 = (1, .escalate) :=
    respondLoop_escalate _ 0 hdec
  have h2 := hclaim (fun _ => (0.2 : ℚ))
    (by intro i; unfold CONFIDENCE_THRESHOLD; norm_num)
  rw [h1] at h2
  have : (1 : ℕ) = MAX_RETRIES + 1 := congrArg Prod.fst h2
  unfold MAX_RETRIES at this
  omega

/-- C2 (amended): for any request whose `respond` outcomes are all below
the `0.7` retry threshold but strictly above the `0.3` retry floor, the
orchestrator invokes `respond` exactly `MAX_RETRIES + 1` times and then
escalates. -/
theorem retry_bound_amended (outcomes : ℕ → ℚ)
    (h : ∀ i, (0.3 : ℚ) < outcomes i ∧ outcomes i < CONFIDENCE_THRESHOLD) :
    respondLoop outcomes 0 = (MAX_RETRIES + 1, .escalate) := by
  have step : ∀ r : ℕ, r < MAX_RETRIES →
      respondLoop outcomes r =
        ((respondLoop outcomes (r + 1)).1 + 1,
         (respondLoop outcomes (r + 1)).2) := by
    intro r hr
    apply respondLoop_retry
    rw [qualityDecision_of_band _ _ (h r).1 (h r).2, if_pos hr]
  have hlast : respondLoop outcomes MAX_RETRIES = (1, .escalate) := by
    apply respondLoop_escalate
    rw [qualityDecision_of_band _ _ (h MAX_RETRIES).1 (h MAX_RETRIES).2,
      if_neg (lt_irrefl MAX_RETRIES)]
  have h2 : respondLoop outcomes 2 = (1, .escalate) := hlast
  have h1 : respondLoop outcomes 1 = (2, .escalate) := by
    rw [step 1 (by unfold MAX_RETRIES; omega), h2]
  have h0 : respondLoop outcomes 0 = (3, .escalate) := by
    rw [step 0 (by unfold MAX_RETRIES; omega), h1]
  rw [h0]
  rfl

/-- Concrete instance of the amended retry bound: constant outcome `0.4`
(inside the retry band) gives exactly three `respond` invocations and a
forced escalation. -/
theorem retry_bound_amended_witness :
    respondLoop (fun _ => (0.4 : ℚ)) 0 = (MAX_RETRIES + 1, .escalate) := by
  apply retry_bound_amended
  intro i
  unfold CONFIDENCE_THRESHOLD
  norm_num

/-! ## Agent state (src/agents/state.py)

The pydantic `AgentState` record threaded through the graph.  Dict-typed
metadata is modelled by its consulted keys: a message's metadata carries the
optional PII token map and the confidence/sources the responder attaches; a
retrieval result's metadata carries the optional `doc_id`. -/

structure MsgMeta where
  pii_tokens : Option (List (String × String)) := none
  confidence : Option ℚ := none
  sources : Option (List String) := none
  deriving DecidableEq

structure Message where
  role : String
  content : String
  metadata : MsgMeta := {}
  deriving DecidableEq

structure RetrievalResult where
  content : String
  doc_id : Option String := none
  score : ℚ := 0
  source : String := "unknown"
  deriving DecidableEq

structure AgentState where
  messages : List Message := []
  current_query : String := ""
  intent : String := "general"
  complexity : String := "standard"
  category : String := "general"
  urgency : ℚ := 0.5
  sentiment : ℚ := 0.5
  retrieval_results : List RetrievalResult := []
  response : String := ""
  confidence : ℚ := 0
  sources : List String := []
  hallucination_detected : Bool := false
  retry_count : ℕ := 0
  should_escalate : Bool := false
  escalation_reason : String := ""
  cache_hit : Bool := false
  model_used : String := ""
  deriving DecidableEq

/-! ## Substring containment (Python's `in` on strings) -/

/-- Does the character sequence start with `pat`? -/
def seqStarts : List Char → List Char → Bool
  | [], _ => true
  | _ :: _, [] => false
  | a :: as, b :: bs => a == b && seqStarts as bs

/-- Does the character sequence contain `pat` as a contiguous segment? -/
def seqContains (pat : List Char) : List Char → Bool
  | [] => pat.isEmpty
  | c :: rest => seqStarts pat (c :: rest) || seqContains pat rest

/-- Python's `pat in s` on strings. -/
def strContainsSub (s pat : String) : Bool :=
  seqContains pat.toList s.toList

/-! ## Escalation handler (src/agents/escalation.py) -/

/-- `EscalationHandler.get_priority`. -/
def getPriority (st : AgentState) : String :=
  if strContainsSub st.escalation_reason.toLower "security" then "critical"
  else if (0.9 : ℚ) < st.urgency then "high"
  else if st.sentiment < (0.2 : ℚ) then "high"
  else if st.confidence < (0.3 : ℚ) then "medium"
  else "normal"

/-- The handoff-notice response text `prepare_escalation` installs
(`ticket_id` comes from the queued handoff package). -/
def escalationNotice (ticket_id priority response : String) : String :=
  "I apologize, but I wasn\x27t able to fully resolve your question. \n    \nI\x27ve escalated this to our support team and they\x27ll follow up with you shortly.\n\n**Ticket ID**: " ++
    ticket_id ++ "\n**Priority**: " ++ priority.capitalize ++
    "\n\nIn the meantime, here\x27s what I found that might help:\n" ++
    (if response = "" then "No relevant information found." else response) ++
    "\n\nOur team will reach out to you soon. Is there anything else I can help with?"

/-- `prepare_escalation` (the graph's `escalate` node): if the state is not
yet marked, set the flag and default the reason to `"Manual escalation"`
(Python's `state.escalation_reason or "Manual escalation"`); then install
the handoff notice.  The ticket id of the handoff package is produced by an
external collaborator (wall clock / ticket store) and passed in. -/
def prepareEscalation (st : AgentState) (ticket_id : String) : AgentState :=
  let st1 :=
    if st.should_escalate = false then
      { st with
          should_escalate := true,
          escalation_reason :=
            if st.escalation_reason = "" then "Manual escalation"
            else st.escalation_reason }
    else st
  { st1 with
      response := escalationNotice ticket_id (getPriority st1) st1.response }

/-- C3 counterexample: at confidence `0.2` on the first attempt
(`retry_count = 0`) the quality gate does *not* loop back to `respond` — it
escalates at once, because a retry requires confidence strictly above the
`0.3` floor; and the escalation reason installed for such an unmarked state
is `"Manual escalation"`, which does not contain `"confidence"`. -/
theorem low_confidence_scenario_counterexample :
    qualityDecision (0.2 : ℚ) 0 ≠ QDecision.retry ∧
    (prepareEscalation { confidence := 0.2 } "T1").escalation_reason =
      "Manual escalation" ∧
    strContainsSub
      (prepareEscalation { confidence := 0.2 } "T1").escalation_reason
      "confidence" = false := by
  refine ⟨?_, rfl, by decide⟩
  unfold qualityDecision CONFIDENCE_THRESHOLD MAX_RETRIES
  norm_num
  decide

/-- C3 (amended): if `respond` produces confidence `0.2` on the first
attempt, the orchestrator transitions directly to `Escalate` without any
further `respond` attempt (the `0.3` retry floor is not met, even though
retries remain), and — the responder not having marked the state — the
escalation reason becomes `"Manual escalation"`, which does not contain
the word `"confidence"`. -/
theorem low_confidence_first_attempt (st : AgentState) (tid : String)
    (hconf : st.confidence = 0.2) (hretry : st.retry_count = 0)
    (hesc : st.should_escalate = false)
    (hreason : st.escalation_reason = "") :
    qualityDecision st.confidence st.retry_count = .escalate ∧
    (prepareEscalation st tid).escalation_reason = "Manual escalation" ∧
    strContainsSub (prepareEscalation st tid).escalation_reason
      "confidence" = false := by
  have hr : (prepareEscalation st tid).escalation_reason =
      "Manual escalation" := by
    unfold prepareEscalation
    simp [hesc, hreason]
  refine ⟨?_, hr, ?_⟩
  · rw [hconf, hretry]
    unfold qualityDecision CONFIDENCE_THRESHOLD MAX_RETRIES
    norm_num
  · rw [hr]
    decide

/-- Concrete instance of the amended first-attempt scenario. -/
theorem low_confidence_first_attempt_witness :
    qualityDecision (AgentState.confidence { confidence := 0.2 })
        (AgentState.retry_count { confidence := 0.2 }) = .escalate ∧
    (prepareEscalation { confidence := 0.2 } "T2").escalation_reason =
      "Manual escalation" ∧
    strContainsSub
      (prepareEscalation { confidence := 0.2 } "T2").escalation_reason
      "confidence" = false :=
  low_confidence_first_attempt { confidence := 0.2 } "T2" rfl rfl rfl rfl

/-! ## Responder agent (src/agents/responder.py)

The generation call (`_invoke_with_rotation`, a network call to the LLM
with API-key rotation) is the external collaborator; its outcome enters
`respond` as an `Except`: `.ok text` for a generated response, `.error e`
for any exception escaping the rotation loop. -/

/-- `MODEL_ROUTING` (src/config.py). -/
def MODEL_ROUTING (tier : String) : Option String :=
  if tier = "simple" then some "gemini-2.0-flash-lite"
  else if tier = "moderate" then some "gemini-2.5-flash"
  else if tier = "complex" then some "gemini-2.5-flash"
  else none

/-- `MODEL_ROUTING.get(state.complexity, MODEL_ROUTING["moderate"])`. -/
def modelUsed (complexity : String) : String :=
  (MODEL_ROUTING complexity).getD "gemini-2.5-flash"

/-- `ResponderAgent._build_context`. -/
def buildContext (st : AgentState) : String :=
  if st.retrieval_results = [] then "No relevant documentation found."
  else
    String.intercalate "\n"
      ((st.retrieval_results.take 5).enum.map
        (fun p =>
          "[Source " ++ toString (p.1 + 1) ++ " - " ++
            p.2.doc_id.getD "unknown" ++ "]\n" ++ p.2.content ++ "\n"))

/-- `ResponderAgent._build_history`. -/
def buildHistory (st : AgentState) : String :=
  let parts := st.messages.dropLast.map
    (fun m =>
      (if m.role = "user" then "Customer" else "Agent") ++ ": " ++ m.content)
  if parts = [] then "No previous conversation"
  else String.intercalate "\n" parts

/-- `set(text.lower().split())`: lower-case whitespace tokens, as a
duplicate-free list. -/
def wordSet (s : String) : List String :=
  ((s.toLower.split (fun c => c.isWhitespace)).filter
    (fun w => ¬ w = "")).dedup

/-- `ResponderAgent._calculate_confidence`: base on the top retrieval score
(every pydantic `RetrievalResult` has a `score`, so the `hasattr` guard
always takes the attribute), add a source-count bonus capped at `0.15` and
a query/context lexical-overlap bonus, cap at `0.95`, floor at `0.5`;
`0.4` when there are no retrieval results. -/
def calculateConfidence (st : AgentState) (context : String) : ℚ :=
  match st.retrieval_results with
  | [] => 0.4
  | r0 :: _ =>
    let top_score := r0.score
    let source_bonus :=
      min (0.15 : ℚ) ((st.retrieval_results.length : ℚ) * 0.03)
    let query_words := wordSet st.current_query
    let context_words := wordSet context
    let overlap :=
      ((query_words.filter (fun w => w ∈ context_words)).length : ℚ) /
        ((max query_words.length 1 : ℕ) : ℚ)
    let relevance_bonus := overlap * 0.1
    let confidence := min (0.95 : ℚ) (top_score + source_bonus + relevance_bonus)
    max (0.5 : ℚ) confidence

/-- The fixed apology `ResponderAgent.respond` installs on failure. -/
def RESPONSE_FAILURE_TEXT : String :=
  "I apologize, but I\x27m having trouble processing your request. Let me connect you with a support specialist."

/-- `ResponderAgent.respond`: on success install the generated text, the
top-3 sources and the calculated confidence and append an assistant
message; on any exception from the generation collaborator install the
apology, zero the confidence and force escalation.  Total: every call
returns a well-formed state. -/
def respond (st : AgentState) (genResult : Except String String) :
    AgentState :=
  let st0 := { st with model_used := modelUsed st.complexity }
  let context := buildContext st0
  match genResult with
  | .ok text =>
    let st1 := { st0 with
        response := text,
        sources := (st0.retrieval_results.take 3).map
          (fun r => r.doc_id.getD "unknown") }
    let conf := calculateConfidence st1 context
    { st1 with
        confidence := conf,
        messages := st1.messages ++
          [{ role := "assistant", content := text,
             metadata := { confidence := some conf,
                           sources := some st1.sources } }] }
  | .error _ =>
    { st0 with
        response := RESPONSE_FAILURE_TEXT,
        confidence := 0,
        should_escalate := true }

/-- C7: every external-collaborator failure during `respond` is absorbed:
the returned (always well-formed) state carries confidence `0`, a forced
escalation flag, and the fixed hand-off apology as its response — no
exception propagates to the caller. -/
theorem respond_failure_handling (st : AgentState) (err : String) :
    (respond st (.error err)).confidence = 0 ∧
    (respond st (.error err)).should_escalate = true ∧
    (respond st (.error err)).response = RESPONSE_FAILURE_TEXT :=
  ⟨rfl, rfl, rfl⟩

theorem calculateConfidence_mem (st : AgentState) (ctx : String)
    (h : st.retrieval_results ≠ []) :
    (0.5 : ℚ) ≤ calculateConfidence st ctx ∧
    calculateConfidence st ctx ≤ 0.95 := by
  obtain ⟨r0, rest, hr⟩ : ∃ r0 rest, st.retrieval_results = r0 :: rest := by
    cases hre : st.retrieval_results with
    | nil => exact absurd hre h
    | cons a l => exact ⟨a, l, rfl⟩
  unfold calculateConfidence
  rw [hr]
  constructor
  · exact le_max_left _ _
  · exact max_le (by norm_num) (min_le_left _ _)

/-- C10 counterexample: a successful generation with an empty
retrieval-result list yields confidence `0.4`, which is below the `0.5`
escalation threshold — the claimed `[0.5, 0.95]` range does not hold for
every retrieved-context input. -/
theorem respond_confidence_range_counterexample :
    ¬ (∀ (st : AgentState) (text : String),
        (0.5 : ℚ) ≤ (respond st (.ok text)).confidence) := by
  intro hclaim
  have h := hclaim {} "answer"
  have hv : (respond {} (.ok "answer")).confidence = 0.4 := rfl
  rw [hv] at h
  norm_num at h

/-- C10 (amended): whenever the generation call succeeds *and at least one
retrieval result is present*, the computed confidence lies in
`[0.5, 0.95]`; with an empty retrieval-result list a successful generation
instead yields the fixed confidence `0.4`. -/
theorem respond_confidence_range (st : AgentState) (text : String)
    (h : st.retrieval_results ≠ []) :
    ((0.5 : ℚ) ≤ (respond st (.ok text)).confidence ∧
      (respond st (.ok text)).confidence ≤ 0.95) ∧
    ∀ st2 : AgentState, st2.retrieval_results = [] →
      (respond st2 (.ok text)).confidence = 0.4 := by
  constructor
  · simp only [respond]
    exact calculateConfidence_mem _ _ (by simpa using h)
  · intro st2 h2
    simp only [respond, calculateConfidence]
    rw [show ({ st2 with
        model_used := modelUsed st2.complexity,
        response := text,
        sources := (st2.retrieval_results.take 3).map
          (fun r => r.doc_id.getD "unknown") } : AgentState).retrieval_results
      = st2.retrieval_results from rfl, h2]

/-- Concrete instance of the amended confidence range: one retrieval
result with score `0.8` gives a confidence inside `[0.5, 0.95]`. -/
theorem respond_confidence_range_witness :
    ((0.5 : ℚ) ≤ (respond { retrieval_results := [{ content := "refund steps", score := 0.8 }] } (.ok "ok")).confidence ∧
      (respond { retrieval_results := [{ content := "refund steps", score := 0.8 }] } (.ok "ok")).confidence ≤ 0.95) ∧
    (respond { } (.ok "ok")).confidence = 0.4 :=
  ⟨(respond_confidence_range
      { retrieval_results := [{ content := "refund steps", score := 0.8 }] }
      "ok" (by simp)).1,
   (respond_confidence_range
      { retrieval_results := [{ content := "refund steps", score := 0.8 }] }
      "ok" (by simp)).2 { } rfl⟩

/-! ## Semantic cache (src/cache/semantic_cache.py)

The embedding service and the FAISS inner-product index are external
collaborators: `get`/`put` receive the similarity-search outcome as a
function from the entry list the index was (re)built over to
`Option (best_score × best_index)` (`none` models FAISS's `-1` index on an
empty index), and `put` receives the already-normalised query embedding.
Wall-clock times are explicit rational inputs. -/

/-- The metadata dict the orchestrator stores with a cached response. -/
structure CacheMeta where
  confidence : ℚ
  sources : List String
  intent : String
  category : String
  deriving DecidableEq

structure CacheEntry where
  query : String
  response : String
  embedding : List ℚ
  metadata : Option CacheMeta := none
  created_at : ℚ
  hits : ℕ := 0
  deriving DecidableEq

/-- `CacheEntry.is_expired`: `time.time() - created_at > ttl`. -/
def isExpired (e : CacheEntry) (ttl now : ℚ) : Bool :=
  decide (ttl < now - e.created_at)

structure SemanticCache where
  similarity_threshold : ℚ := SEMANTIC_CACHE_THRESHOLD
  ttl_seconds : ℚ := CACHE_TTL_SECONDS
  max_entries : ℕ := 10000
  entries : List CacheEntry := []
  hasIndex : Bool := false
  total_hits : ℕ := 0
  total_misses : ℕ := 0
  deriving DecidableEq

/-- `_cleanup_expired`: keep the non-expired entries (the FAISS index is
rebuilt over exactly these entries; index contents live in the external
search collaborator). -/
def cleanupExpired (entries : List CacheEntry) (ttl now : ℚ) :
    List CacheEntry :=
  entries.filter (fun e => ¬ isExpired e ttl now)

/-- The entry list `get` searches: `_cleanup_expired` has run exactly when
the first entry is expired. -/
def postCleanup (c : SemanticCache) (now : ℚ) : List CacheEntry :=
  match c.entries with
  | [] => c.entries
  | e0 :: _ =>
    if isExpired e0 c.ttl_seconds now then
      cleanupExpired c.entries c.ttl_seconds now
    else c.entries

/-- The tuple a cache hit returns: the cached response plus the metadata
dict merged with `cache_hit = True`, the similarity score and the original
cached query. -/
structure CacheHitInfo where
  response : String
  metadata : Option CacheMeta
  similarity_score : ℚ
  original_query : String
  deriving DecidableEq

/-- `SemanticCache.get`: miss on an empty/indexless cache; lazily clean up
when the first entry has expired (missing again if nothing survives);
then a hit requires the searched best score to reach the similarity
threshold and the best entry to be unexpired — the hit bumps the entry's
and the cache's hit counters, every other path increments the miss
counter.  An out-of-range best index (impossible for a consistent FAISS
index) falls through to a miss. -/
def cacheGet (c : SemanticCache) (now : ℚ)
    (search : List CacheEntry → Option (ℚ × ℕ)) :
    Option CacheHitInfo × SemanticCache :=
  if c.entries = [] ∨ c.hasIndex = false then
    (none, { c with total_misses := c.total_misses + 1 })
  else
    let entries1 := postCleanup c now
    if entries1 = [] then
      (none,
       { c with entries := entries1, total_misses := c.total_misses + 1 })
    else
      match search entries1 with
      | some (best_score, best_idx) =>
        if c.similarity_threshold ≤ best_score then
          match entries1.get? best_idx with
          | some entry =>
            if isExpired entry c.ttl_seconds now = false then
              (some { response := entry.response,
                      metadata := entry.metadata,
                      similarity_score := best_score,
                      original_query := entry.query },
               { c with
                   entries := entries1.set best_idx
                     { entry with hits := entry.hits + 1 },
                   total_hits := c.total_hits + 1 })
            else
              (none,
               { c with entries := entries1, total_misses := c.total_misses + 1 })
          | none =>
            (none,
             { c with entries := entries1, total_misses := c.total_misses + 1 })
        else
          (none,
           { c with entries := entries1, total_misses := c.total_misses + 1 })
      | none =>
        (none,
         { c with entries := entries1, total_misses := c.total_misses + 1 })

/-- C5: with threshold `T`, a non-expired best match of similarity exactly
`T` is a hit (the cached response is returned and the hit counter bumped),
while a best match of similarity `T − ε` for any `ε > 0` is a miss
(nothing is returned and the miss counter is incremented). -/
theorem cache_threshold_boundary (c : SemanticCache) (now : ℚ) (idx : ℕ)
    (e : CacheEntry) (hHas : c.hasIndex = true)
    (hIdx : (postCleanup c now).get? idx = some e)
    (hFresh : isExpired e c.ttl_seconds now = false) :
    (∀ search : List CacheEntry → Option (ℚ × ℕ),
        search (postCleanup c now) = some (c.similarity_threshold, idx) →
        (cacheGet c now search).1 =
          some { response := e.response, metadata := e.metadata,
                 similarity_score := c.similarity_threshold,
                 original_query := e.query } ∧
        (cacheGet c now search).2.total_hits = c.total_hits + 1) ∧
    (∀ ε : ℚ, 0 < ε →
      ∀ search : List CacheEntry → Option (ℚ × ℕ),
        search (postCleanup c now) = some (c.similarity_threshold - ε, idx) →
        (cacheGet c now search).1 = none ∧
        (cacheGet c now search).2.total_misses = c.total_misses + 1) := by
  have hne1 : postCleanup c now ≠ [] := by
    intro hnil
    rw [hnil] at hIdx
    simp at hIdx
  have hne : ¬ (c.entries = [] ∨ c.hasIndex = false) := by
    rintro (h1 | h2)
    · apply hne1
      unfold postCleanup
      rw [h1]
    · rw [hHas] at h2
      exact absurd h2 (by simp)
  constructor
  · intro search hsearch
    unfold cacheGet
    rw [if_neg hne]
    simp only [if_neg hne1, hsearch, hIdx, if_pos (le_refl c.similarity_threshold),
      hFresh]
    exact ⟨rfl, rfl⟩
  · intro ε hε search hsearch
    have hlt : ¬ (c.similarity_threshold ≤ c.similarity_threshold - ε) := by
      intro hc
      linarith
    unfold cacheGet
    rw [if_neg hne]
    simp only [if_neg hne1, hsearch, if_neg hlt]
    constructor
    · first
      | rfl
      | trivial
    · first
      | rfl
      | trivial

/-- Witness entry: cached at time `0`. -/
def cacheEntryW : CacheEntry :=
  { query := "q", response := "r", embedding := [1], created_at := 0 }

/-- Witness cache: one entry, index built, default threshold `0.90` and
TTL `3600`. -/
def cacheW : SemanticCache :=
  { entries := [cacheEntryW], hasIndex := true }

/-- Concrete instance of the threshold boundary: similarity exactly `0.90`
hits, `0.90 − 0.01` misses. -/
theorem cache_threshold_boundary_witness :
    (cacheGet cacheW 10 (fun _ => some (cacheW.similarity_threshold, 0))).1 =
      some { response := "r", metadata := none,
             similarity_score := cacheW.similarity_threshold,
             original_query := "q" } ∧
    (cacheGet cacheW 10
        (fun _ => some (cacheW.similarity_threshold - 0.01, 0))).1 = none := by
  have hpc : postCleanup cacheW 10 = [cacheEntryW] := by
    unfold postCleanup cacheW
    norm_num [isExpired, cacheEntryW, CACHE_TTL_SECONDS]
  have h := cache_threshold_boundary cacheW 10 0 cacheEntryW rfl
    (by rw [hpc]; rfl)
    (by norm_num [isExpired, cacheEntryW, cacheW, CACHE_TTL_SECONDS])
  exact ⟨((h.1 _ rfl).1 : _), ((h.2 0.01 (by norm_num) _ rfl).1 : _)⟩

/-- C6: an entry created at time `t0` in a cache with TTL `S` is still
returned for a sufficiently similar query at `t0 + S − 1` (a hit), while at
`t0 + S + 1` a cache whose entries were all created no later than `t0`
yields a miss for every search outcome, incrementing the miss counter. -/
theorem cache_ttl_boundary (c : SemanticCache) (t0 S score : ℚ) (idx : ℕ)
    (e : CacheEntry) (hTtl : c.ttl_seconds = S) (hHas : c.hasIndex = true)
    (hSim : c.similarity_threshold ≤ score) :
    ((postCleanup c (t0 + S - 1)).get? idx = some e → e.created_at = t0 →
      ∀ search : List CacheEntry → Option (ℚ × ℕ),
        search (postCleanup c (t0 + S - 1)) = some (score, idx) →
        (cacheGet c (t0 + S - 1) search).1 =
          some { response := e.response, metadata := e.metadata,
                 similarity_score := score, original_query := e.query }) ∧
    ((∀ e2 ∈ c.entries, e2.created_at ≤ t0) →
      ∀ search : List CacheEntry → Option (ℚ × ℕ),
        (cacheGet c (t0 + S + 1) search).1 = none ∧
        (cacheGet c (t0 + S + 1) search).2.total_misses =
          c.total_misses + 1) := by
  constructor
  · intro hIdx hCre search hsearch
    have hFresh : isExpired e c.ttl_seconds (t0 + S - 1) = false := by
      simp only [isExpired, hTtl, hCre, decide_eq_false_iff_not, not_lt]
      linarith
    have hne1 : postCleanup c (t0 + S - 1) ≠ [] := by
      intro hnil
      rw [hnil] at hIdx
      simp at hIdx
    have hne : ¬ (c.entries = [] ∨ c.hasIndex = false) := by
      rintro (h1 | h2)
      · apply hne1
        unfold postCleanup
        rw [h1]
      · rw [hHas] at h2
        exact absurd h2 (by simp)
    unfold cacheGet
    rw [if_neg hne]
    simp only [if_neg hne1, hsearch, if_pos hSim, hIdx, hFresh, if_true]
  · intro hAll search
    by_cases hemp : c.entries = [] ∨ c.hasIndex = false
    · unfold cacheGet
      rw [if_pos hemp]
      exact ⟨rfl, rfl⟩
    · have hne_entries : c.entries ≠ [] := fun h1 => hemp (Or.inl h1)
      have hExp : ∀ e2 ∈ c.entries,
          isExpired e2 c.ttl_seconds (t0 + S + 1) = true := by
        intro e2 he2
        simp only [isExpired, hTtl, decide_eq_true_eq]
        have := hAll e2 he2
        linarith
      have hpost : postCleanup c (t0 + S + 1) = [] := by
        cases he : c.entries with
        | nil => exact absurd he hne_entries
        | cons e0 rest =>
          have he0 : isExpired e0 c.ttl_seconds (t0 + S + 1) = true :=
            hExp e0 (by rw [he]; exact List.mem_cons_self e0 rest)
          simp only [postCleanup, he, he0, if_true, cleanupExpired]
          rw [List.filter_eq_nil_iff]
          intro e2 he2
          simp [hExp e2 (by rw [he]; exact he2)]
      unfold cacheGet
      rw [if_neg hemp]
      simp only [hpost]
      exact ⟨rfl, rfl⟩

/-- Concrete instance of the TTL boundary: the entry cached at `0` with the
default TTL `3600` hits at `3599` and misses at `3601`. -/
theorem cache_ttl_boundary_witness :
    (cacheGet cacheW (0 + 3600 - 1) (fun _ => some (0.95, 0))).1 =
      some { response := "r", metadata := none, similarity_score := 0.95,
             original_query := "q" } ∧
    (cacheGet cacheW (0 + 3600 + 1) (fun _ => some (0.95, 0))).1 = none := by
  have h := cache_ttl_boundary cacheW 0 3600 0.95 0 cacheEntryW rfl rfl
    (by norm_num [cacheW, SEMANTIC_CACHE_THRESHOLD])
  have hpc : postCleanup cacheW (0 + 3600 - 1) = [cacheEntryW] := by
    unfold postCleanup cacheW
    norm_num [isExpired, cacheEntryW, CACHE_TTL_SECONDS]
  constructor
  · exact h.1 (by rw [hpc]; rfl) rfl _ rfl
  · refine (h.2 ?_ _).1
    intro e2 he2
    have : e2 = cacheEntryW := by simpa [cacheW] using he2
    rw [this]
    norm_num [cacheEntryW]

/-- The append path of `SemanticCache.put`: evict (lazy cleanup first,
then an oldest-first batch drop of `len − max + 100` entries) when at
capacity, then append the new entry. -/
def cachePutInsert (c : SemanticCache) (emb : List ℚ) (now : ℚ)
    (q resp : String) (md : Option CacheMeta) : SemanticCache :=
  let c1 :=
    if c.max_entries ≤ c.entries.length then
      let c2 := { c with entries := cleanupExpired c.entries c.ttl_seconds now }
      if c2.max_entries ≤ c2.entries.length then
        { c2 with entries :=
            c2.entries.drop (c2.entries.length - c2.max_entries + 100) }
      else c2
    else c
  { c1 with entries := c1.entries ++
      [{ query := q, response := resp, embedding := emb, metadata := md,
         created_at := now }] }

/-- `SemanticCache.put`: ensure the index exists; if a searched existing
entry is at least `0.98` similar, refresh it in place (response, metadata,
`created_at`); otherwise evict if needed and append a new entry.  The
normalised query embedding and the similarity probe are external
collaborator outcomes passed in. -/
def cachePut (c : SemanticCache) (emb : List ℚ)
    (search : List CacheEntry → Option (ℚ × ℕ)) (now : ℚ)
    (q resp : String) (md : Option CacheMeta) : SemanticCache :=
  let c0 := { c with hasIndex := true }
  if c0.entries = [] then cachePutInsert c0 emb now q resp md
  else
    match search c0.entries with
    | some (score, idx) =>
      if (0.98 : ℚ) ≤ score then
        match c0.entries.get? idx with
        | some e =>
          { c0 with entries := c0.entries.set idx { e with response := resp, metadata := md, created_at := now } }
        | none => cachePutInsert c0 emb now q resp md
      else cachePutInsert c0 emb now q resp md
    | none => cachePutInsert c0 emb now q resp md

/-! ## Finalize node (src/agents/graph.py `_finalize`) -/

/-- `_finalize`: cache the response exactly when the outcome was not a
cache hit, the confidence reaches `0.7`, and the request was not
escalated; then restore anonymised PII tokens in the response when the
last message carries a token map (the restoring `deanonymize` is the
external PII collaborator). -/
def finalize (st : AgentState) (cache : SemanticCache) (emb : List ℚ)
    (search : List CacheEntry → Option (ℚ × ℕ)) (now : ℚ)
    (deanon : String → List (String × String) → String) :
    AgentState × SemanticCache :=
  let cache1 :=
    if st.cache_hit = false ∧ (0.7 : ℚ) ≤ st.confidence ∧
        st.should_escalate = false then
      cachePut cache emb search now st.current_query st.response
        (some { confidence := st.confidence, sources := st.sources,
                intent := st.intent, category := st.category })
    else cache
  let st1 :=
    match st.messages.getLast? with
    | some m =>
      match m.metadata.pii_tokens with
      | some tm => { st with response := deanon st.response tm }
      | none => st
    | none => st
  (st1, cache1)

/-- C8: `finalize` writes to the semantic cache (invoking `put` on the
request's query/response) exactly when the outcome was not itself a cache
hit, was not escalated, and its confidence is at least `0.7`; in every
other outcome the cache leaves `finalize` unchanged. -/
theorem finalize_cache_policy (st : AgentState) (cache : SemanticCache)
    (emb : List ℚ) (search : List CacheEntry → Option (ℚ × ℕ)) (now : ℚ)
    (deanon : String → List (String × String) → String) :
    (st.cache_hit = false → (0.7 : ℚ) ≤ st.confidence →
      st.should_escalate = false →
      (finalize st cache emb search now deanon).2 =
        cachePut cache emb search now st.current_query st.response
          (some { confidence := st.confidence, sources := st.sources,
                  intent := st.intent, category := st.category })) ∧
    (st.cache_hit = true ∨ st.confidence < 0.7 ∨ st.should_escalate = true →
      (finalize st cache emb search now deanon).2 = cache) := by
  constructor
  · intro h1 h2 h3
    unfold finalize
    rw [if_pos ⟨h1, h2, h3⟩]
  · intro hdisj
    have hneg : ¬ (st.cache_hit = false ∧ (0.7 : ℚ) ≤ st.confidence ∧
        st.should_escalate = false) := by
      rintro ⟨hc, hf, he⟩
      rcases hdisj with h1 | h1 | h1
      · rw [hc] at h1
        exact absurd h1 (by simp)
      · linarith
      · rw [he] at h1
        exact absurd h1 (by simp)
    unfold finalize
    rw [if_neg hneg]

/-- Concrete instance of the finalize caching policy: a non-cached,
non-escalated outcome with confidence `0.8` is written through `put`, and
a cache-hit outcome leaves the cache untouched. -/
theorem finalize_cache_policy_witness :
    (finalize { current_query := "q3", response := "resp", confidence := 0.8 }
        { } [1] (fun _ => none) 5 (fun s _ => s)).2 =
      cachePut { } [1] (fun _ => none) 5 "q3" "resp"
        (some { confidence := 0.8, sources := [], intent := "general",
                category := "general" }) ∧
    (finalize { cache_hit := true } { } [1] (fun _ => none) 5
        (fun s _ => s)).2 = { } := by
  constructor
  · exact (finalize_cache_policy
      { current_query := "q3", response := "resp", confidence := 0.8 }
      { } [1] (fun _ => none) 5 (fun s _ => s)).1 rfl (by norm_num) rfl
  · exact (finalize_cache_policy { cache_hit := true } { } [1]
      (fun _ => none) 5 (fun s _ => s)).2 (Or.inl rfl)

end SupportAgent
